import Mathlib

/-!
Shallow embedding of the repository/service data-access layer of
nest-auth-mongoose: the generic `BaseRepository`, the
`SoftDeletableRepository` that adds a live-only default visibility filter,
and the `AuditableRepository` that stamps actor identity onto mutations.

The underlying document store (Mongoose/MongoDB) is modelled as a list of
records; its standard filter/update semantics ($set-style plain-object
updates, `deletedAt: null` matching null-or-absent, `findByIdAndUpdate`
returning the post-update document when the `new` flag is in force,
`updateMany` reporting `modifiedCount`, the count of documents whose stored
state actually changed) are embedded directly.  Records carry an opaque
`payload` field standing for all entity-specific fields, plus the audit and
soft-delete fields declared by `SoftDeletableEntity` / `AuditableEntity`.
Timestamps are naturals; `Option` models null-or-absent field values.
-/

set_option autoImplicit false

namespace NestAuth

/-- Record stored in one collection: store-assigned `id`, an opaque
`payload` for the entity-specific fields, and the soft-delete / audit
fields of `SoftDeletableEntity` and `AuditableEntity`.  `deletedAt = none`
means the record is live (the field is null or absent). -/
structure Rec where
  id : Nat
  payload : Nat
  createdBy : Option String
  updatedBy : Option String
  deletedAt : Option Nat
  deletedBy : Option String
deriving Repr, DecidableEq

/-- Condition a filter puts on `deletedAt`: no condition, `deletedAt: null`,
or `deletedAt: { $ne: null }`. -/
inductive DeletedAtCond where
  | any
  | isNull
  | notNull
deriving Repr, DecidableEq

/-- Mongo filter document, restricted to the shapes the repository layer
builds: optional equality on `_id`, optional equality on the opaque
payload (standing for any caller-supplied entity-field condition), and a
condition on `deletedAt`. -/
structure Filter where
  idEq : Option Nat := none
  payloadEq : Option Nat := none
  deletedAtCond : DeletedAtCond := DeletedAtCond.any
deriving Repr, DecidableEq

def optEqMatches {α : Type} [DecidableEq α] : Option α → α → Bool
  | none, _ => true
  | some v, x => decide (v = x)

def condMatches : DeletedAtCond → Option Nat → Bool
  | DeletedAtCond.any, _ => true
  | DeletedAtCond.isNull, d => decide (d = none)
  | DeletedAtCond.notNull, d => !(decide (d = none))

/-- Does record `r` match filter `f` (conjunction of the present clauses,
as in a Mongo filter document). -/
def Filter.matches (f : Filter) (r : Rec) : Bool :=
  optEqMatches f.idEq r.id && optEqMatches f.payloadEq r.payload &&
    condMatches f.deletedAtCond r.deletedAt

/-- The spread `{ ...filter, deletedAt: null }` used by the soft-deletable
repository: the later key overrides any `deletedAt` clause of the caller
filter. -/
def Filter.withLive (f : Filter) : Filter :=
  { f with deletedAtCond := DeletedAtCond.isNull }

/-- The spread `{ ...filter, deletedAt: { $ne: null } }` used by the
`...OnlyDeleted` variants. -/
def Filter.withOnlyDeleted (f : Filter) : Filter :=
  { f with deletedAtCond := DeletedAtCond.notNull }

/-- Plain-object Mongo update document ($set semantics), restricted to the
fields of the embedded record.  An outer `some` means the update assigns
the field; the inner value is what it is set to (`some none` = set to
null, as `restore` does for `deletedAt`/`deletedBy`). -/
structure UpdateDoc where
  setPayload : Option Nat := none
  setCreatedBy : Option (Option String) := none
  setUpdatedBy : Option (Option String) := none
  setDeletedAt : Option (Option Nat) := none
  setDeletedBy : Option (Option String) := none
deriving Repr, DecidableEq

def setField {α : Type} : Option α → α → α
  | none, old => old
  | some v, _ => v

/-- Apply an update document to a record ($set each assigned field; `_id`
is never assignable). -/
def UpdateDoc.apply (u : UpdateDoc) (r : Rec) : Rec :=
  { r with
    payload := setField u.setPayload r.payload
    createdBy := setField u.setCreatedBy r.createdBy
    updatedBy := setField u.setUpdatedBy r.updatedBy
    deletedAt := setField u.setDeletedAt r.deletedAt
    deletedBy := setField u.setDeletedBy r.deletedBy }

/-- Subset of Mongoose `QueryOptions` the claims depend on: the `new` flag
of the find-and-update operations (`none` = caller did not supply it). -/
structure QueryOptions where
  new : Option Bool := none
deriving Repr, DecidableEq

/-- Effective value of the `new` flag after the source's spread
`{ new: true, ...options }`: a caller-supplied value overrides the
default `true`. -/
def QueryOptions.effNew (o : QueryOptions) : Bool :=
  o.new.getD true

/-- JavaScript truthiness of an optional string argument: `undefined` and
the empty string are falsy, any other string is truthy.  This is the test
performed by `if (createdBy)`, `if (updatedBy)`, `if (deletedBy)` in the
source. -/
def truthy : Option String → Bool
  | none => false
  | some s => !(decide (s = ""))

/-- Data handed to `create` (a `Partial<T>`): every storable field except
the store-assigned `_id`. -/
structure RecData where
  payload : Nat := 0
  createdBy : Option String := none
  updatedBy : Option String := none
  deletedAt : Option Nat := none
  deletedBy : Option String := none
deriving Repr, DecidableEq

/-- Record built by the store from create-data, with store-assigned
identity `i`. -/
def RecData.toRec (d : RecData) (i : Nat) : Rec :=
  { id := i, payload := d.payload, createdBy := d.createdBy,
    updatedBy := d.updatedBy, deletedAt := d.deletedAt,
    deletedBy := d.deletedBy }

/-- State of one collection: the stored records, in the order the store
returns them under the ambient sort. -/
abbrev DB := List Rec

/-- Update the first record satisfying `p` (Mongo's single-document
find-and-update touches exactly one document). -/
def updFirst (p : Rec → Bool) (u : UpdateDoc) : DB → DB
  | [] => []
  | r :: rest => if p r then u.apply r :: rest else r :: updFirst p u rest

/-- Remove the first record satisfying `p` (Mongo's single-document
delete). -/
def removeFirst (p : Rec → Bool) : DB → DB
  | [] => []
  | r :: rest => if p r then rest else r :: removeFirst p rest

namespace Base

/-- BaseRepository.create: insert one record; the store assigns identity
`newId`.  Returns the saved entity and the new collection state. -/
def create (db : DB) (newId : Nat) (d : RecData) : Rec × DB :=
  (d.toRec newId, db ++ [d.toRec newId])

/-- BaseRepository.findById: `model.findById`, no visibility filter. -/
def findById (db : DB) (i : Nat) : Option Rec :=
  db.find? (fun r => decide (r.id = i))

/-- BaseRepository.findOne: first record matching the filter. -/
def findOne (db : DB) (f : Filter) : Option Rec :=
  db.find? (fun r => f.matches r)

/-- BaseRepository.findAll: all records matching the filter, in store
order. -/
def findAll (db : DB) (f : Filter) : List Rec :=
  db.filter (fun r => f.matches r)

/-- BaseRepository.count: `countDocuments`. -/
def count (db : DB) (f : Filter) : Nat :=
  (findAll db f).length

/-- BaseRepository.exists: `countDocuments(filter).limit(1)` then `> 0`. -/
def existsDoc (db : DB) (f : Filter) : Bool :=
  decide (0 < count db f)

/-- BaseRepository.findByIdAndUpdate: atomic find-and-mutate by id with
`{ new: true, ...options }`.  Returns the post-update document when the
effective `new` flag is true, the pre-update document when the caller
overrode it to false, and `null` when no record has the id. -/
def findByIdAndUpdate (db : DB) (i : Nat) (u : UpdateDoc) (o : QueryOptions) :
    Option Rec × DB :=
  match db.find? (fun r => decide (r.id = i)) with
  | none => (none, db)
  | some r =>
    (if o.effNew then some (u.apply r) else some r,
     updFirst (fun x => decide (x.id = i)) u db)

/-- BaseRepository.findOneAndUpdate: atomic find-and-mutate of the first
filter match with `{ new: true, ...options }`. -/
def findOneAndUpdate (db : DB) (f : Filter) (u : UpdateDoc) (o : QueryOptions) :
    Option Rec × DB :=
  match db.find? (fun r => f.matches r) with
  | none => (none, db)
  | some r =>
    (if o.effNew then some (u.apply r) else some r,
     updFirst (fun x => f.matches x) u db)

/-- BaseRepository.updateMany: update every record matching the filter;
return `modifiedCount`, the number of matched records whose stored state
the update actually changed. -/
def updateMany (db : DB) (f : Filter) (u : UpdateDoc) : Nat × DB :=
  (db.countP (fun r => f.matches r && decide (u.apply r ≠ r)),
   db.map (fun r => if f.matches r then u.apply r else r))

/-- BaseRepository.findByIdAndDelete: physical removal by id; returns the
removed document or `null`. -/
def findByIdAndDelete (db : DB) (i : Nat) : Option Rec × DB :=
  (db.find? (fun r => decide (r.id = i)),
   removeFirst (fun r => decide (r.id = i)) db)

/-- BaseRepository.findOneAndDelete: physical removal of the first filter
match. -/
def findOneAndDelete (db : DB) (f : Filter) : Option Rec × DB :=
  (db.find? (fun r => f.matches r), removeFirst (fun r => f.matches r) db)

/-- BaseRepository.deleteMany: physical removal of every match; returns
`deletedCount`. -/
def deleteMany (db : DB) (f : Filter) : Nat × DB :=
  (db.countP (fun r => f.matches r), db.filter (fun r => !(f.matches r)))

/-- PaginationOptions of the source (`sort` is handled by the store: the
ambient order of `DB` already reflects it, and the default
`{ createdAt: -1 }` chooses that order, so only the window parameters are
embedded). -/
structure PaginationOptions where
  page : Nat
  limit : Nat
deriving Repr, DecidableEq

/-- Pagination metadata of `PaginatedResult`. -/
structure PaginatedMeta where
  total : Nat
  page : Nat
  limit : Nat
  totalPages : Nat
  hasNextPage : Bool
  hasPrevPage : Bool
deriving Repr, DecidableEq

/-- PaginatedResult of the source. -/
structure PaginatedResult where
  data : List Rec
  meta : PaginatedMeta
deriving Repr, DecidableEq

/-- Math.ceil(a / b) for naturals with b ≥ 1 (the only domain the source
reaches it on: `limit` comes from a PaginationRequest with limit ≥ 1). -/
def jsCeilDiv (a b : Nat) : Nat :=
  (a + b - 1) / b

/-- BaseRepository.findAllPaginated: window `skip = (page-1)*limit`,
size `limit`, over the filtered records; total counted independently; the
metadata computed exactly as in the source.  (For `page ≥ 1` the natural
subtraction in `skip` agrees with the source's integer arithmetic.) -/
def findAllPaginated (db : DB) (f : Filter) (o : PaginationOptions) :
    PaginatedResult :=
  let skip := (o.page - 1) * o.limit
  let data := ((findAll db f).drop skip).take o.limit
  let total := count db f
  let totalPages := jsCeilDiv total o.limit
  { data := data,
    meta :=
      { total := total, page := o.page, limit := o.limit,
        totalPages := totalPages,
        hasNextPage := decide (o.page < totalPages),
        hasPrevPage := decide (1 < o.page) } }

end Base

namespace SoftDel

/-- SoftDeletableRepository.softDelete: stamp `deletedAt` with the current
time `now`, and `deletedBy` only when the argument is truthy, then
delegate to `this.findByIdAndUpdate` — which the class does NOT override,
so the unfiltered BaseRepository.findByIdAndUpdate runs (no live-only
condition on this path). -/
def softDelete (db : DB) (now : Nat) (i : Nat) (deletedBy : Option String) :
    Option Rec × DB :=
  let u : UpdateDoc :=
    { setDeletedAt := some (some now),
      setDeletedBy := if truthy deletedBy then some deletedBy else none }
  Base.findByIdAndUpdate db i u {}

/-- SoftDeletableRepository.softDeleteMany: same stamping, bulk, through
the unfiltered BaseRepository.updateMany. -/
def softDeleteMany (db : DB) (now : Nat) (f : Filter) (deletedBy : Option String) :
    Nat × DB :=
  let u : UpdateDoc :=
    { setDeletedAt := some (some now),
      setDeletedBy := if truthy deletedBy then some deletedBy else none }
  Base.updateMany db f u

/-- The update document `{ deletedAt: null, deletedBy: null }` used by
restore and restoreMany. -/
def clearUpd : UpdateDoc :=
  { setDeletedAt := some none, setDeletedBy := some none }

/-- SoftDeletableRepository.restore: clear `deletedAt` and `deletedBy`
through the unfiltered BaseRepository.findByIdAndUpdate (not overridden,
so soft-deleted records are reachable). -/
def restore (db : DB) (i : Nat) : Option Rec × DB :=
  Base.findByIdAndUpdate db i clearUpd {}

/-- SoftDeletableRepository.restoreMany: clear both fields on every filter
match through the unfiltered BaseRepository.updateMany. -/
def restoreMany (db : DB) (f : Filter) : Nat × DB :=
  Base.updateMany db f clearUpd

/-- SoftDeletableRepository.forceDelete: physical removal via the base
repository, regardless of soft-delete state. -/
def forceDelete (db : DB) (i : Nat) : Option Rec × DB :=
  Base.findByIdAndDelete db i

/-- SoftDeletableRepository.forceDeleteMany. -/
def forceDeleteMany (db : DB) (f : Filter) : Nat × DB :=
  Base.deleteMany db f

/-- SoftDeletableRepository.findAll override: AND in `deletedAt: null`. -/
def findAll (db : DB) (f : Filter) : List Rec :=
  Base.findAll db f.withLive

/-- SoftDeletableRepository.findAllWithDeleted: the unfiltered base read. -/
def findAllWithDeleted (db : DB) (f : Filter) : List Rec :=
  Base.findAll db f

/-- SoftDeletableRepository.findAllOnlyDeleted: AND in
`deletedAt: { $ne: null }`. -/
def findAllOnlyDeleted (db : DB) (f : Filter) : List Rec :=
  Base.findAll db f.withOnlyDeleted

/-- SoftDeletableRepository.findOne override. -/
def findOne (db : DB) (f : Filter) : Option Rec :=
  Base.findOne db f.withLive

/-- SoftDeletableRepository.findById override: `findOne` on
`{ _id: id, deletedAt: null }`. -/
def findById (db : DB) (i : Nat) : Option Rec :=
  Base.findOne db { idEq := some i, deletedAtCond := DeletedAtCond.isNull }

/-- SoftDeletableRepository.count override. -/
def count (db : DB) (f : Filter) : Nat :=
  Base.count db f.withLive

/-- SoftDeletableRepository.countOnlyDeleted. -/
def countOnlyDeleted (db : DB) (f : Filter) : Nat :=
  Base.count db f.withOnlyDeleted

/-- SoftDeletableRepository.findAllPaginated override (live-only). -/
def findAllPaginated (db : DB) (f : Filter) (o : Base.PaginationOptions) :
    Base.PaginatedResult :=
  Base.findAllPaginated db f.withLive o

/-- SoftDeletableRepository.findAllPaginatedWithDeleted. -/
def findAllPaginatedWithDeleted (db : DB) (f : Filter) (o : Base.PaginationOptions) :
    Base.PaginatedResult :=
  Base.findAllPaginated db f o

/-- SoftDeletableRepository.findAllPaginatedOnlyDeleted. -/
def findAllPaginatedOnlyDeleted (db : DB) (f : Filter) (o : Base.PaginationOptions) :
    Base.PaginatedResult :=
  Base.findAllPaginated db f.withOnlyDeleted o

end SoftDel

namespace Audit

/-- AuditableRepository.createWithAudit: spread the data, stamp
`createdBy` only when the actor argument is truthy, then delegate to the
base create. -/
def createWithAudit (db : DB) (newId : Nat) (d : RecData)
    (createdBy : Option String) : Rec × DB :=
  Base.create db newId
    (if truthy createdBy then { d with createdBy := createdBy } else d)

/-- AuditableRepository.updateManyWithAudit: spread the caller update,
stamp `updatedBy` only when the actor argument is truthy, then delegate to
`super.updateMany` — the soft-deletable class does not override
`updateMany`, so the unfiltered BaseRepository.updateMany runs. -/
def updateManyWithAudit (db : DB) (f : Filter) (u : UpdateDoc)
    (updatedBy : Option String) : Nat × DB :=
  Base.updateMany db f
    (if truthy updatedBy then { u with setUpdatedBy := some updatedBy } else u)

/-- AuditableRepository.findByIdAndUpdateWithAudit. -/
def findByIdAndUpdateWithAudit (db : DB) (i : Nat) (u : UpdateDoc)
    (updatedBy : Option String) (o : QueryOptions) : Option Rec × DB :=
  Base.findByIdAndUpdate db i
    (if truthy updatedBy then { u with setUpdatedBy := some updatedBy } else u) o

end Audit

/-- One mutating operation of the repository API, as issued by application
code after some point in time.  Read operations do not change state and
are therefore not steps.  `create` carries only the data: the store
assigns the identity.  Times for soft-delete stamps are carried in the
operation. -/
inductive Op where
  | create : RecData → Op
  | findByIdAndUpdate : Nat → UpdateDoc → QueryOptions → Op
  | findOneAndUpdate : Filter → UpdateDoc → QueryOptions → Op
  | updateMany : Filter → UpdateDoc → Op
  | findByIdAndDelete : Nat → Op
  | findOneAndDelete : Filter → Op
  | deleteMany : Filter → Op
  | softDelete : Nat → Nat → Option String → Op
  | softDeleteMany : Nat → Filter → Option String → Op
  | restore : Nat → Op
  | restoreMany : Filter → Op
  | forceDelete : Nat → Op
  | forceDeleteMany : Filter → Op
  | createWithAudit : RecData → Option String → Op
  | updateManyWithAudit : Filter → UpdateDoc → Option String → Op
deriving Repr, DecidableEq

/-- Collection state together with the store's identity source: `nextId`
is the next identity the store will assign (store-assigned identities are
fresh; they are never reused, even after deletion). -/
structure St where
  db : DB
  nextId : Nat
deriving Repr, DecidableEq

/-- Step semantics: the collection state after one repository operation. -/
def Op.apply (s : St) : Op → St
  | Op.create d => { db := (Base.create s.db s.nextId d).2, nextId := s.nextId + 1 }
  | Op.findByIdAndUpdate i u o => { s with db := (Base.findByIdAndUpdate s.db i u o).2 }
  | Op.findOneAndUpdate f u o => { s with db := (Base.findOneAndUpdate s.db f u o).2 }
  | Op.updateMany f u => { s with db := (Base.updateMany s.db f u).2 }
  | Op.findByIdAndDelete i => { s with db := (Base.findByIdAndDelete s.db i).2 }
  | Op.findOneAndDelete f => { s with db := (Base.findOneAndDelete s.db f).2 }
  | Op.deleteMany f => { s with db := (Base.deleteMany s.db f).2 }
  | Op.softDelete now i b => { s with db := (SoftDel.softDelete s.db now i b).2 }
  | Op.softDeleteMany now f b => { s with db := (SoftDel.softDeleteMany s.db now f b).2 }
  | Op.restore i => { s with db := (SoftDel.restore s.db i).2 }
  | Op.restoreMany f => { s with db := (SoftDel.restoreMany s.db f).2 }
  | Op.forceDelete i => { s with db := (SoftDel.forceDelete s.db i).2 }
  | Op.forceDeleteMany f => { s with db := (SoftDel.forceDeleteMany s.db f).2 }
  | Op.createWithAudit d a => { db := (Audit.createWithAudit s.db s.nextId d a).2, nextId := s.nextId + 1 }
  | Op.updateManyWithAudit f u a => { s with db := (Audit.updateManyWithAudit s.db f u a).2 }

/-- State after a whole trace of operations. -/
def runTrace (s : St) : List Op → St
  | [] => s
  | op :: ops => runTrace (op.apply s) ops

/-- Well-formedness the store maintains: every stored identity was
assigned before `nextId`, and identities are pairwise distinct (`_id`
is unique within a collection). -/
def WF (s : St) : Prop :=
  (∀ r ∈ s.db, r.id < s.nextId) ∧ (s.db.map Rec.id).Nodup

instance (s : St) : Decidable (WF s) := by
  unfold WF
  exact instDecidableAnd

/-! Helper lemmas about the embedded store operations. -/

theorem UpdateDoc.apply_id (u : UpdateDoc) (r : Rec) : (u.apply r).id = r.id := rfl

theorem mem_updFirst {p : Rec → Bool} {u : UpdateDoc} {db : DB} {x : Rec}
    (hx : x ∈ updFirst p u db) : x ∈ db ∨ ∃ y ∈ db, x = u.apply y := by
  induction db with
  | nil => simp [updFirst] at hx
  | cons r rest ih =>
    by_cases hp : p r
    · simp only [updFirst, if_pos hp, List.mem_cons] at hx
      rcases hx with hx | hx
      · exact Or.inr ⟨r, List.mem_cons_self r rest, hx⟩
      · exact Or.inl (List.mem_cons_of_mem r hx)
    · simp only [updFirst, if_neg hp, List.mem_cons] at hx
      rcases hx with hx | hx
      · exact Or.inl (hx ▸ List.mem_cons_self r rest)
      · rcases ih hx with h | ⟨y, hy, hxy⟩
        · exact Or.inl (List.mem_cons_of_mem r h)
        · exact Or.inr ⟨y, List.mem_cons_of_mem r hy, hxy⟩

theorem mem_removeFirst {p : Rec → Bool} {db : DB} {x : Rec}
    (hx : x ∈ removeFirst p db) : x ∈ db := by
  induction db with
  | nil => simp [removeFirst] at hx
  | cons r rest ih =>
    by_cases hp : p r
    · simp only [removeFirst, if_pos hp] at hx
      exact List.mem_cons_of_mem r hx
    · simp only [removeFirst, if_neg hp, List.mem_cons] at hx
      rcases hx with hx | hx
      · exact hx ▸ List.mem_cons_self r rest
      · exact List.mem_cons_of_mem r (ih hx)

theorem find?_id_of_nodup {db : DB} {r : Rec} {i : Nat}
    (hnd : (db.map Rec.id).Nodup) (hmem : r ∈ db) (hid : r.id = i) :
    db.find? (fun x => decide (x.id = i)) = some r := by
  induction db with
  | nil => cases hmem
  | cons a rest ih =>
    simp only [List.map_cons, List.nodup_cons] at hnd
    rcases List.mem_cons.mp hmem with rfl | hmem
    · exact List.find?_cons_of_pos rest (by simp [hid])
    · have hai : a.id ≠ i := by
        intro h
        apply hnd.1
        rw [h, ← hid]
        exact List.mem_map_of_mem Rec.id hmem
      rw [List.find?_cons_of_neg rest (by simp [hai])]
      exact ih hnd.2 hmem

theorem find?_id_eq_none {db : DB} {i : Nat} (h : ∀ r ∈ db, r.id ≠ i) :
    db.find? (fun x => decide (x.id = i)) = none := by
  apply List.find?_eq_none.mpr
  intro x hx
  simpa using h x hx

theorem map_untouched {db : DB} {i : Nat} {u : UpdateDoc}
    (h : ∀ x ∈ db, x.id ≠ i) :
    db.map (fun x => if x.id = i then u.apply x else x) = db := by
  have h2 : ∀ x ∈ db, (if x.id = i then u.apply x else x) = id x := by
    intro a ha
    simp [h a ha]
  rw [List.map_congr_left h2, db.map_id]

theorem updFirst_eq_map {db : DB} {i : Nat} {u : UpdateDoc}
    (hnd : (db.map Rec.id).Nodup) :
    updFirst (fun x => decide (x.id = i)) u db =
      db.map (fun x => if x.id = i then u.apply x else x) := by
  induction db with
  | nil => rfl
  | cons a rest ih =>
    simp only [List.map_cons, List.nodup_cons] at hnd
    by_cases hai : a.id = i
    · have hrest : ∀ x ∈ rest, x.id ≠ i := by
        intro x hx h
        apply hnd.1
        rw [hai, ← h]
        exact List.mem_map_of_mem Rec.id hx
      simp only [updFirst, decide_eq_true_eq]
      rw [if_pos hai, List.map_cons, if_pos hai, map_untouched hrest]
    · simp only [updFirst, decide_eq_true_eq]
      rw [if_neg hai, List.map_cons, if_neg hai, ih hnd.2]

theorem filter_id_of_nodup {db : DB} {r : Rec} {i : Nat}
    (hnd : (db.map Rec.id).Nodup) (hmem : r ∈ db) (hid : r.id = i) :
    db.filter (fun x => decide (x.id = i)) = [r] := by
  induction db with
  | nil => cases hmem
  | cons a rest ih =>
    simp only [List.map_cons, List.nodup_cons] at hnd
    rcases List.mem_cons.mp hmem with rfl | hmem
    · have hrest : ∀ x ∈ rest, x.id ≠ i := by
        intro x hx h
        apply hnd.1
        rw [hid, ← h]
        exact List.mem_map_of_mem Rec.id hx
      rw [List.filter_cons_of_pos (by simp [hid]),
        List.filter_eq_nil_iff.mpr (by intro x hx; simp [hrest x hx])]
    · have hai : a.id ≠ i := by
        intro h
        apply hnd.1
        rw [h, ← hid]
        exact List.mem_map_of_mem Rec.id hmem
      rw [List.filter_cons_of_neg (by simp [hai]), ih hnd.2 hmem]

/-- Live record with identity `i` and payload `p`, no audit fields set. -/
def mkLive (i p : Nat) : Rec :=
  { id := i, payload := p, createdBy := none, updatedBy := none,
    deletedAt := none, deletedBy := none }

/-- Soft-deleted record with identity `i`, payload `p`, deleted at time
`t`. -/
def mkDel (i p t : Nat) : Rec :=
  { id := i, payload := p, createdBy := none, updatedBy := none,
    deletedAt := some t, deletedBy := none }

/-- Ceiling division as computed by `Math.ceil(total / limit)` is, for
`limit ≥ 1`, the least number of pages covering the total. -/
theorem jsCeilDiv_spec (t l : Nat) (hl : 1 ≤ l) :
    t ≤ Base.jsCeilDiv t l * l ∧ ∀ m, t ≤ m * l → Base.jsCeilDiv t l ≤ m := by
  have h0 : 0 < l := hl
  have hEq : Base.jsCeilDiv t l = t ⌈/⌉ l := (Nat.ceilDiv_eq_add_pred_div t l).symm
  constructor
  · rw [hEq]
    have h := (ceilDiv_le_iff_le_mul h0).mp (le_refl (t ⌈/⌉ l))
    exact h.trans_eq (mul_comm l (t ⌈/⌉ l))
  · intro m hm
    rw [hEq, ceilDiv_le_iff_le_mul h0]
    exact hm.trans_eq (mul_comm m l)

/-- C1 (counterexample): `softDelete` on a record whose `deletedAt` is
already set does NOT return null — it re-stamps `deletedAt` and returns
the updated record, because `this.findByIdAndUpdate` resolves to the
unfiltered base implementation. -/
theorem softDelete_on_deleted_cex :
    (SoftDel.softDelete [mkDel 1 0 5] 10 1 none).1 = some (mkDel 1 0 10) ∧
      (SoftDel.softDelete [mkDel 1 0 5] 10 1 none).1 ≠ none := by
  constructor
  · rfl
  · intro h
    simp [SoftDel.softDelete, Base.findByIdAndUpdate, mkDel, List.find?,
      QueryOptions.effNew] at h

/-- C1 (amended): `softDelete(id, deletedBy?)` carries NO live-only
visibility filter: it delegates to the unfiltered base
`findByIdAndUpdate`, so it returns the updated record whenever some
record has the id — live or already soft-deleted (an already-deleted
record is re-stamped with the new deletion time) — and returns null only
when no record has the id at all. -/
theorem softDelete_unfiltered (db : DB) (now i : Nat) (b : Option String)
    (hnd : (db.map Rec.id).Nodup) :
    (∀ r ∈ db, r.id = i →
      (SoftDel.softDelete db now i b).1 =
        some (if truthy b then { r with deletedAt := some now, deletedBy := b }
          else { r with deletedAt := some now })) ∧
    ((∀ r ∈ db, r.id ≠ i) → (SoftDel.softDelete db now i b).1 = none) := by
  constructor
  · intro r hr hid
    unfold SoftDel.softDelete
    unfold Base.findByIdAndUpdate
    rw [find?_id_of_nodup hnd hr hid]
    by_cases hb : truthy b
    · simp [QueryOptions.effNew, UpdateDoc.apply, setField, hb]
    · simp [QueryOptions.effNew, UpdateDoc.apply, setField, hb]
  · intro h
    unfold SoftDel.softDelete
    unfold Base.findByIdAndUpdate
    rw [find?_id_eq_none h]

/-- C1 (witness for the amended theorem): on a one-record collection
holding a record soft-deleted at time 5, `softDelete` at time 10 finds it
and re-stamps it. -/
theorem softDelete_unfiltered_witness :
    ([mkDel 1 0 5].map Rec.id).Nodup ∧
      (SoftDel.softDelete [mkDel 1 0 5] 10 1 none).1 =
        some { mkDel 1 0 5 with deletedAt := some 10 } :=
  ⟨by decide,
    (softDelete_unfiltered [mkDel 1 0 5] 10 1 none (by decide)).1 (mkDel 1 0 5)
      (List.mem_singleton.mpr rfl) rfl⟩

/-- C2: `findAllPaginated` reads the window of size `limit` starting at
`skip = (page-1)*limit` of the filtered records, and the metadata
satisfies the pagination invariant: `total` is the full match count,
`page`/`limit` echo the request, `totalPages` is the least number of
pages of size `limit` covering `total` (i.e. `ceil(total/limit)`),
`hasNextPage = (page < totalPages)` and `hasPrevPage = (page > 1)`. -/
theorem findAllPaginated_spec (db : DB) (f : Filter) (page limit : Nat)
    (_hp : 1 ≤ page) (hl : 1 ≤ limit) :
    (Base.findAllPaginated db f ⟨page, limit⟩).data =
      ((Base.findAll db f).drop ((page - 1) * limit)).take limit ∧
    (Base.findAllPaginated db f ⟨page, limit⟩).meta.total = Base.count db f ∧
    (Base.findAllPaginated db f ⟨page, limit⟩).meta.page = page ∧
    (Base.findAllPaginated db f ⟨page, limit⟩).meta.limit = limit ∧
    Base.count db f ≤
      (Base.findAllPaginated db f ⟨page, limit⟩).meta.totalPages * limit ∧
    (∀ m : Nat, Base.count db f ≤ m * limit →
      (Base.findAllPaginated db f ⟨page, limit⟩).meta.totalPages ≤ m) ∧
    (Base.findAllPaginated db f ⟨page, limit⟩).meta.hasNextPage =
      decide (page < (Base.findAllPaginated db f ⟨page, limit⟩).meta.totalPages) ∧
    (Base.findAllPaginated db f ⟨page, limit⟩).meta.hasPrevPage =
      decide (1 < page) := by
  refine ⟨rfl, rfl, rfl, rfl, ?_, ?_, rfl, rfl⟩
  · exact (jsCeilDiv_spec (Base.count db f) limit hl).1
  · exact (jsCeilDiv_spec (Base.count db f) limit hl).2

/-- C2 (witness): page 2 of size 2 over three live records satisfies the
invariant; in particular `totalPages = ceil(3/2) = 2`. -/
theorem findAllPaginated_spec_witness :
    1 ≤ (2 : Nat) ∧
      (Base.findAllPaginated [mkLive 1 0, mkLive 2 0, mkLive 3 0] {} ⟨2, 2⟩).meta.totalPages ≤ 2 :=
  ⟨by decide,
    (findAllPaginated_spec [mkLive 1 0, mkLive 2 0, mkLive 3 0] {} 2 2
      (by decide) (by decide)).2.2.2.2.2.1 2 (by decide)⟩

/-- After `softDelete(id)` (no actor), the collection state is the old one
with the record carrying that id re-stamped to `deletedAt = now` (for an
id-unique collection). -/
theorem softDelete_snd (db : DB) (now i : Nat)
    (hnd : (db.map Rec.id).Nodup) :
    (SoftDel.softDelete db now i none).2 =
      db.map (fun x => if x.id = i then { x with deletedAt := some now } else x) := by
  unfold SoftDel.softDelete
  unfold Base.findByIdAndUpdate
  cases hfind : db.find? (fun x => decide (x.id = i)) with
  | none =>
    have hno : ∀ x ∈ db, x.id ≠ i := by
      intro x hx
      have := List.find?_eq_none.mp hfind x hx
      simpa using this
    simp only
    symm
    have h2 : ∀ x ∈ db,
        (if x.id = i then { x with deletedAt := some now } else x) = id x := by
      intro a ha
      simp [hno a ha]
    rw [List.map_congr_left h2, db.map_id]
  | some r =>
    simp only
    rw [updFirst_eq_map hnd]
    apply List.map_congr_left
    intro x _
    by_cases hx : x.id = i
    · simp [hx, UpdateDoc.apply, setField, truthy]
    · simp [hx]

/-- C3: soft-deleting a live record makes it invisible to the
default-filtered `findById`, while `findAllOnlyDeleted` restricted to its
id still returns it, with `deletedAt` set to the soft-deletion time. -/
theorem softDelete_then_visibility (db : DB) (now i : Nat) (r : Rec)
    (hnd : (db.map Rec.id).Nodup) (hmem : r ∈ db) (hid : r.id = i)
    (_hlive : r.deletedAt = none) :
    (SoftDel.softDelete db now i none).1 = some { r with deletedAt := some now } ∧
    SoftDel.findById (SoftDel.softDelete db now i none).2 i = none ∧
    SoftDel.findAllOnlyDeleted (SoftDel.softDelete db now i none).2 { idEq := some i } =
      [{ r with deletedAt := some now }] := by
  have hsnd := softDelete_snd db now i hnd
  refine ⟨?_, ?_, ?_⟩
  · have := (softDelete_unfiltered db now i none hnd).1 r hmem hid
    simpa [truthy] using this
  · unfold SoftDel.findById
    unfold Base.findOne
    rw [hsnd]
    apply List.find?_eq_none.mpr
    intro x hx
    rcases List.mem_map.mp hx with ⟨y, hy, rfl⟩
    by_cases hyi : y.id = i
    · simp [hyi, Filter.matches, optEqMatches, condMatches]
    · simp [hyi, Filter.matches, optEqMatches, condMatches, Ne.symm hyi]
  · unfold SoftDel.findAllOnlyDeleted
    unfold Base.findAll
    rw [hsnd, List.filter_map]
    have hfc :
        db.filter ((fun x => Filter.matches (Filter.withOnlyDeleted { idEq := some i }) x) ∘
          (fun x => if x.id = i then { x with deletedAt := some now } else x)) =
          db.filter (fun x => decide (x.id = i)) := by
      apply List.filter_congr
      intro x _
      by_cases hx : x.id = i
      · simp [hx, Filter.withOnlyDeleted, Filter.matches, optEqMatches, condMatches]
      · simp [hx, Filter.withOnlyDeleted, Filter.matches, optEqMatches, condMatches,
          Ne.symm hx]
    rw [hfc, filter_id_of_nodup hnd hmem hid]
    simp [hid]

/-- C3 (witness): a two-record collection where record 1 is live; after
soft-deleting it at time 7, the default `findById` no longer sees it and
the deleted-only view at its id returns it with `deletedAt = 7`. -/
theorem softDelete_then_visibility_witness :
    ([mkLive 1 4, mkLive 2 9].map Rec.id).Nodup ∧
      SoftDel.findById (SoftDel.softDelete [mkLive 1 4, mkLive 2 9] 7 1 none).2 1 = none ∧
      SoftDel.findAllOnlyDeleted (SoftDel.softDelete [mkLive 1 4, mkLive 2 9] 7 1 none).2
        { idEq := some 1 } = [{ mkLive 1 4 with deletedAt := some 7 }] :=
  ⟨by decide,
    (softDelete_then_visibility [mkLive 1 4, mkLive 2 9] 7 1 (mkLive 1 4)
      (by decide) (by simp) rfl rfl).2⟩

/-- C4 (counterexample): with caller options `{ new: false }` — which the
source's spread `{ new: true, ...options }` lets override the default —
`findByIdAndUpdate` returns the PRE-update record even though the stored
record was mutated, so it does not return the post-update state for every
caller-supplied options. -/
theorem findByIdAndUpdate_new_false_cex :
    (Base.findByIdAndUpdate [mkLive 1 0] 1 { setPayload := some 7 }
      { new := some false }).1 = some (mkLive 1 0) ∧
    (Base.findByIdAndUpdate [mkLive 1 0] 1 { setPayload := some 7 }
      { new := some false }).2 = [mkLive 1 7] ∧
    mkLive 1 0 ≠ mkLive 1 7 := by
  decide

/-- C4 (amended): for every id, update document, and caller options that
do not override the `new` flag to false, `findByIdAndUpdate` (and
`findOneAndUpdate` for every filter) returns the post-update state of the
matched record — which is then stored — or null when no record matches;
options with `new: false` instead return the pre-update record. -/
theorem findAndUpdate_post_state (db : DB) (i : Nat) (f : Filter)
    (u : UpdateDoc) (o : QueryOptions) (ho : o.new ≠ some false)
    (hnd : (db.map Rec.id).Nodup) :
    (∀ r ∈ db, r.id = i →
      (Base.findByIdAndUpdate db i u o).1 = some (u.apply r) ∧
        u.apply r ∈ (Base.findByIdAndUpdate db i u o).2) ∧
    ((∀ r ∈ db, r.id ≠ i) →
      (Base.findByIdAndUpdate db i u o).1 = none ∧
        (Base.findByIdAndUpdate db i u o).2 = db) ∧
    (∀ r, db.find? (fun x => f.matches x) = some r →
      (Base.findOneAndUpdate db f u o).1 = some (u.apply r)) ∧
    (db.find? (fun x => f.matches x) = none →
      (Base.findOneAndUpdate db f u o).1 = none) := by
  have heff : o.effNew = true := by
    unfold QueryOptions.effNew
    cases hb : o.new with
    | none => rfl
    | some b =>
      cases b with
      | false => exact absurd hb ho
      | true => rfl
  refine ⟨?_, ?_, ?_, ?_⟩
  · intro r hr hid
    unfold Base.findByIdAndUpdate
    rw [find?_id_of_nodup hnd hr hid]
    constructor
    · simp [heff]
    · simp only
      rw [updFirst_eq_map hnd]
      exact List.mem_map.mpr ⟨r, hr, by simp [hid]⟩
  · intro h
    unfold Base.findByIdAndUpdate
    rw [find?_id_eq_none h]
    exact ⟨rfl, rfl⟩
  · intro r hfind
    unfold Base.findOneAndUpdate
    rw [hfind]
    simp [heff]
  · intro hfind
    unfold Base.findOneAndUpdate
    rw [hfind]

/-- C4 (witness for the amended theorem): updating the payload of record 1
with default options returns the post-update record. -/
theorem findAndUpdate_post_state_witness :
    ([mkLive 1 0, mkDel 2 3 5].map Rec.id).Nodup ∧
      (Base.findByIdAndUpdate [mkLive 1 0, mkDel 2 3 5] 1
        { setPayload := some 9 } {}).1 = some (mkLive 1 9) :=
  ⟨by decide,
    ((findAndUpdate_post_state [mkLive 1 0, mkDel 2 3 5] 1 {}
      { setPayload := some 9 } {} (by simp) (by decide)).1 (mkLive 1 0)
      (by simp) rfl).1⟩

/-- C5: `restore(id)` and `restoreMany(filter)` clear both `deletedAt` and
`deletedBy` to null on the affected records, and neither adds a
deleted-state condition to its input: `restore` reaches a record with the
id whatever its deletion state (it delegates to the unfiltered base
`findByIdAndUpdate`), and `restoreMany` transforms exactly the records
matched by the raw caller filter (unfiltered base `updateMany`). -/
theorem restore_unfiltered (db : DB) (f : Filter) (i : Nat)
    (hnd : (db.map Rec.id).Nodup) :
    (∀ r ∈ db, r.id = i →
      (SoftDel.restore db i).1 =
        some { r with deletedAt := none, deletedBy := none }) ∧
    (SoftDel.restoreMany db f).2 =
      db.map (fun r =>
        if f.matches r then { r with deletedAt := none, deletedBy := none }
        else r) ∧
    (SoftDel.restoreMany db f).1 =
      db.countP (fun r =>
        f.matches r && decide (¬(r.deletedAt = none ∧ r.deletedBy = none))) := by
  refine ⟨?_, ?_, ?_⟩
  · intro r hr hid
    unfold SoftDel.restore
    unfold Base.findByIdAndUpdate
    rw [find?_id_of_nodup hnd hr hid]
    simp [QueryOptions.effNew, SoftDel.clearUpd, UpdateDoc.apply, setField]
  · unfold SoftDel.restoreMany
    unfold Base.updateMany
    simp only
    apply List.map_congr_left
    intro r _
    by_cases hm : f.matches r
    · simp [hm, SoftDel.clearUpd, UpdateDoc.apply, setField]
    · simp [hm]
  · unfold SoftDel.restoreMany
    unfold Base.updateMany
    simp only
    apply List.countP_congr
    intro r _
    by_cases hm : f.matches r
    · simp only [hm, Bool.true_and]
      rcases r with ⟨rid, rp, rc, ru, rda, rdb⟩
      simp [SoftDel.clearUpd, UpdateDoc.apply, setField, Rec.mk.injEq]
      tauto
    · simp [hm]

/-- C5 (witness): restoring a soft-deleted record by id succeeds and
clears both soft-delete fields. -/
theorem restore_unfiltered_witness :
    ([mkDel 1 0 5].map Rec.id).Nodup ∧
      (SoftDel.restore [mkDel 1 0 5] 1).1 = some (mkLive 1 0) :=
  ⟨by decide,
    (restore_unfiltered [mkDel 1 0 5] {} 1 (by decide)).1 (mkDel 1 0 5)
      (by simp) rfl⟩

/-- C6: `createWithAudit` stamps `createdBy` with the provided actor and
passes every other field of the data through unchanged; with no actor it
delegates the data untouched, so `createdBy` stays absent when the data
does not carry one (no sentinel is substituted). -/
theorem createWithAudit_spec (db : DB) (newId : Nat) (d : RecData)
    (a : String) (ha : a ≠ "") (hd : d.createdBy = none) :
    (Audit.createWithAudit db newId d (some a)).1.createdBy = some a ∧
    (Audit.createWithAudit db newId d (some a)).1.id = newId ∧
    (Audit.createWithAudit db newId d (some a)).1.payload = d.payload ∧
    (Audit.createWithAudit db newId d (some a)).1.updatedBy = d.updatedBy ∧
    (Audit.createWithAudit db newId d (some a)).1.deletedAt = d.deletedAt ∧
    (Audit.createWithAudit db newId d (some a)).1.deletedBy = d.deletedBy ∧
    (Audit.createWithAudit db newId d (some a)).2 =
      db ++ [(Audit.createWithAudit db newId d (some a)).1] ∧
    Audit.createWithAudit db newId d none = Base.create db newId d ∧
    (Audit.createWithAudit db newId d none).1.createdBy = none := by
  have hta : truthy (some a) = true := by simp [truthy, ha]
  refine ⟨?_, ?_, ?_, ?_, ?_, ?_, ?_, rfl, ?_⟩ <;>
    simp [Audit.createWithAudit, Base.create, RecData.toRec, hta, truthy, hd, ha]

/-- C6 (witness): the spec's own example — an actor stamps, no actor
leaves the field absent. -/
theorem createWithAudit_spec_witness :
    "admin-1" ≠ "" ∧
      (Audit.createWithAudit [] 0 {} (some "admin-1")).1.createdBy = some "admin-1" ∧
      (Audit.createWithAudit [] 0 {} none).1.createdBy = none :=
  ⟨by decide,
    (createWithAudit_spec [] 0 {} "admin-1" (by decide) rfl).1,
    (createWithAudit_spec [] 0 {} "admin-1" (by decide) rfl).2.2.2.2.2.2.2.2⟩

theorem countP_zip_map {α : Type} [DecidableEq α] (g : α → α) (l : List α) :
    ((l.map g).zip l).countP (fun p => decide (p.1 ≠ p.2)) =
      l.countP (fun r => decide (g r ≠ r)) := by
  induction l with
  | nil => rfl
  | cons a t ih =>
    rw [List.map_cons, List.zip_cons_cons, List.countP_cons, List.countP_cons, ih]

/-- C7 (counterexample): the claim fails in two of its universally
quantified corners.  With an update document that itself assigns
`createdBy`, `updateManyWithAudit` does modify `createdBy` (the audit
layer only spreads the caller update, it does not strip that field); and
with the empty-string actor nothing is stamped, so a matched record keeps
its old `updatedBy` instead of receiving the actor. -/
theorem updateManyWithAudit_cex :
    (Audit.updateManyWithAudit
        [{ id := 1, payload := 0, createdBy := some "orig",
           updatedBy := some "old", deletedAt := none, deletedBy := none }]
        {} { setCreatedBy := some (some "intruder") } (some "admin-2")).2.map
        Rec.createdBy = [some "intruder"] ∧
    [some "intruder"] ≠ [some "orig"] ∧
    (Audit.updateManyWithAudit
        [{ id := 1, payload := 0, createdBy := some "orig",
           updatedBy := some "old", deletedAt := none, deletedBy := none }]
        {} {} (some "")).2.map Rec.updatedBy = [some "old"] ∧
    some "old" ≠ some ("" : String) := by
  refine ⟨rfl, by decide, rfl, by decide⟩

/-- C7 (amended): for every filter, every update document that does not
itself assign `createdBy`, and every non-empty actor,
`updateManyWithAudit` stamps `updatedBy` with that actor on every matched
record (leaving unmatched records untouched), modifies no record's
`createdBy`, and returns the count of records actually modified by the
enriched update — the number of stored records whose state changed — not
the count matched by the filter. -/
theorem updateManyWithAudit_spec (db : DB) (f : Filter) (u : UpdateDoc)
    (a : String) (ha : a ≠ "") (hu : u.setCreatedBy = none) :
    List.Forall₂
      (fun r r2 => (f.matches r = true → r2.updatedBy = some a) ∧
        (f.matches r = false → r2 = r))
      db (Audit.updateManyWithAudit db f u (some a)).2 ∧
    (Audit.updateManyWithAudit db f u (some a)).2.map Rec.createdBy =
      db.map Rec.createdBy ∧
    (Audit.updateManyWithAudit db f u (some a)).1 =
      ((Audit.updateManyWithAudit db f u (some a)).2.zip db).countP
        (fun p => decide (p.1 ≠ p.2)) := by
  have hta : truthy (some a) = true := by simp [truthy, ha]
  unfold Audit.updateManyWithAudit
  rw [hta]
  simp only [if_true]
  unfold Base.updateMany
  simp only
  refine ⟨?_, ?_, ?_⟩
  · rw [List.forall₂_map_right_iff]
    apply List.forall₂_same.mpr
    intro r _
    constructor
    · intro hm
      simp [hm, UpdateDoc.apply, setField]
    · intro hm
      simp [hm]
  · rw [List.map_map]
    apply List.map_congr_left
    intro r _
    by_cases hm : f.matches r
    · simp [hm, UpdateDoc.apply, setField, hu]
    · simp [hm]
  · rw [countP_zip_map]
    apply List.countP_congr
    intro r _
    by_cases hm : f.matches r
    · simp [hm]
    · simp [hm]

/-- C7 (witness): stamping two matched records of which only one actually
changes — the returned count is 1, the modified count, not the matched
count 2. -/
theorem updateManyWithAudit_spec_witness :
    "admin-2" ≠ "" ∧
      (Audit.updateManyWithAudit
        [mkLive 1 0,
         { id := 2, payload := 0, createdBy := none, updatedBy := some "admin-2",
           deletedAt := none, deletedBy := none }] {} {} (some "admin-2")).1 =
        ((Audit.updateManyWithAudit
          [mkLive 1 0,
           { id := 2, payload := 0, createdBy := none, updatedBy := some "admin-2",
             deletedAt := none, deletedBy := none }] {} {} (some "admin-2")).2.zip
          [mkLive 1 0,
           { id := 2, payload := 0, createdBy := none, updatedBy := some "admin-2",
             deletedAt := none, deletedBy := none }]).countP
          (fun p => decide (p.1 ≠ p.2)) :=
  ⟨by decide,
    (updateManyWithAudit_spec
      [mkLive 1 0,
       { id := 2, payload := 0, createdBy := none, updatedBy := some "admin-2",
         deletedAt := none, deletedBy := none }] {} {} "admin-2"
      (by decide) rfl).2.2⟩

/-- C8: `restoreMany` is idempotent on its modified count: an immediately
repeated `restoreMany(filter)` with no interleaving operation modifies
zero records — the collection state is unchanged — and returns 0. -/
theorem restoreMany_idempotent (db : DB) (f : Filter) :
    (SoftDel.restoreMany (SoftDel.restoreMany db f).2 f).1 = 0 ∧
    (SoftDel.restoreMany (SoftDel.restoreMany db f).2 f).2 =
      (SoftDel.restoreMany db f).2 := by
  have hfix : ∀ x ∈ (SoftDel.restoreMany db f).2,
      f.matches x → SoftDel.clearUpd.apply x = x := by
    intro x hx hm
    unfold SoftDel.restoreMany Base.updateMany at hx
    simp only [List.mem_map] at hx
    rcases hx with ⟨y, _, rfl⟩
    by_cases hym : f.matches y
    · simp [hym, SoftDel.clearUpd, UpdateDoc.apply, setField]
    · rw [if_neg hym] at hm
      exact absurd hm hym
  constructor
  · unfold SoftDel.restoreMany Base.updateMany
    simp only
    apply List.countP_eq_zero.mpr
    intro x hx
    by_cases hm : Filter.matches f x
    · have := hfix x hx hm
      simp [hm, this]
    · simp [hm]
  · unfold SoftDel.restoreMany Base.updateMany
    simp only
    have h2 : ∀ x ∈ (SoftDel.restoreMany db f).2,
        (if f.matches x then SoftDel.clearUpd.apply x else x) = id x := by
      intro x hx
      by_cases hm : f.matches x
      · simp [hm, hfix x hx hm]
      · simp [hm]
    calc ((SoftDel.restoreMany db f).2.map
            (fun x => if f.matches x then SoftDel.clearUpd.apply x else x))
      = (SoftDel.restoreMany db f).2.map id := List.map_congr_left h2
    _ = (SoftDel.restoreMany db f).2 := List.map_id _

/-- Collection has no record with identity `i`. -/
def NoId (db : DB) (i : Nat) : Prop := ∀ r ∈ db, r.id ≠ i

/-- All stored identities are below `n`. -/
def IdsBelow (db : DB) (n : Nat) : Prop := ∀ r ∈ db, r.id < n

theorem inv_of_sub {db db2 : DB} {n i : Nat}
    (hsub : ∀ x ∈ db2, ∃ y ∈ db, x.id = y.id)
    (h1 : NoId db i) (h2 : IdsBelow db n) : NoId db2 i ∧ IdsBelow db2 n := by
  constructor
  · intro x hx
    obtain ⟨y, hy, he⟩ := hsub x hx
    rw [he]
    exact h1 y hy
  · intro x hx
    obtain ⟨y, hy, he⟩ := hsub x hx
    rw [he]
    exact h2 y hy

theorem ids_sub_fbiu (db : DB) (i2 : Nat) (u : UpdateDoc) (o : QueryOptions) :
    ∀ x ∈ (Base.findByIdAndUpdate db i2 u o).2, ∃ y ∈ db, x.id = y.id := by
  intro x hx
  unfold Base.findByIdAndUpdate at hx
  cases hfind : db.find? (fun r => decide (r.id = i2)) with
  | none =>
    rw [hfind] at hx
    exact ⟨x, hx, rfl⟩
  | some r =>
    rw [hfind] at hx
    simp only at hx
    rcases mem_updFirst hx with h | ⟨y, hy, rfl⟩
    · exact ⟨x, h, rfl⟩
    · exact ⟨y, hy, rfl⟩

theorem ids_sub_foau (db : DB) (f : Filter) (u : UpdateDoc) (o : QueryOptions) :
    ∀ x ∈ (Base.findOneAndUpdate db f u o).2, ∃ y ∈ db, x.id = y.id := by
  intro x hx
  unfold Base.findOneAndUpdate at hx
  cases hfind : db.find? (fun r => f.matches r) with
  | none =>
    rw [hfind] at hx
    exact ⟨x, hx, rfl⟩
  | some r =>
    rw [hfind] at hx
    simp only at hx
    rcases mem_updFirst hx with h | ⟨y, hy, rfl⟩
    · exact ⟨x, h, rfl⟩
    · exact ⟨y, hy, rfl⟩

theorem ids_sub_updateMany (db : DB) (f : Filter) (u : UpdateDoc) :
    ∀ x ∈ (Base.updateMany db f u).2, ∃ y ∈ db, x.id = y.id := by
  intro x hx
  unfold Base.updateMany at hx
  simp only [List.mem_map] at hx
  rcases hx with ⟨y, hy, rfl⟩
  by_cases hf : f.matches y
  · exact ⟨y, hy, by simp [hf, UpdateDoc.apply]⟩
  · exact ⟨y, hy, by simp [hf]⟩

theorem ids_sub_fbidel (db : DB) (i2 : Nat) :
    ∀ x ∈ (Base.findByIdAndDelete db i2).2, ∃ y ∈ db, x.id = y.id := by
  intro x hx
  exact ⟨x, mem_removeFirst hx, rfl⟩

theorem ids_sub_fodel (db : DB) (f : Filter) :
    ∀ x ∈ (Base.findOneAndDelete db f).2, ∃ y ∈ db, x.id = y.id := by
  intro x hx
  exact ⟨x, mem_removeFirst hx, rfl⟩

theorem ids_sub_deleteMany (db : DB) (f : Filter) :
    ∀ x ∈ (Base.deleteMany db f).2, ∃ y ∈ db, x.id = y.id := by
  intro x hx
  exact ⟨x, (List.mem_filter.mp hx).1, rfl⟩

/-- One repository operation can neither resurrect an identity absent
from the collection (when that identity is below the store's fresh-id
counter) nor break the identity bound. -/
theorem noId_below_step (i : Nat) (s : St) (op : Op)
    (h1 : NoId s.db i) (h2 : IdsBelow s.db s.nextId) (h3 : i < s.nextId) :
    NoId (op.apply s).db i ∧ IdsBelow (op.apply s).db (op.apply s).nextId ∧
      i < (op.apply s).nextId := by
  have hcreate : ∀ d : RecData,
      NoId (s.db ++ [d.toRec s.nextId]) i ∧
      IdsBelow (s.db ++ [d.toRec s.nextId]) (s.nextId + 1) ∧
      i < s.nextId + 1 := by
    intro d
    refine ⟨?_, ?_, Nat.lt_succ_of_lt h3⟩
    · intro x hx
      rcases List.mem_append.mp hx with h | h
      · exact h1 x h
      · rw [List.mem_singleton.mp h]
        exact Nat.ne_of_gt h3
    · intro x hx
      rcases List.mem_append.mp hx with h | h
      · exact Nat.lt_succ_of_lt (h2 x h)
      · rw [List.mem_singleton.mp h]
        exact Nat.lt_succ_self _
  cases op with
  | create d => exact hcreate d
  | createWithAudit d a =>
    simp only [Op.apply, Audit.createWithAudit, Base.create]
    by_cases ht : truthy a
    · rw [if_pos ht]
      exact hcreate { d with createdBy := a }
    · rw [if_neg ht]
      exact hcreate d
  | findByIdAndUpdate i2 u o =>
    obtain ⟨g1, g2⟩ := inv_of_sub (ids_sub_fbiu s.db i2 u o) h1 h2
    exact ⟨g1, g2, h3⟩
  | findOneAndUpdate f u o =>
    obtain ⟨g1, g2⟩ := inv_of_sub (ids_sub_foau s.db f u o) h1 h2
    exact ⟨g1, g2, h3⟩
  | updateMany f u =>
    obtain ⟨g1, g2⟩ := inv_of_sub (ids_sub_updateMany s.db f u) h1 h2
    exact ⟨g1, g2, h3⟩
  | findByIdAndDelete i2 =>
    obtain ⟨g1, g2⟩ := inv_of_sub (ids_sub_fbidel s.db i2) h1 h2
    exact ⟨g1, g2, h3⟩
  | findOneAndDelete f =>
    obtain ⟨g1, g2⟩ := inv_of_sub (ids_sub_fodel s.db f) h1 h2
    exact ⟨g1, g2, h3⟩
  | deleteMany f =>
    obtain ⟨g1, g2⟩ := inv_of_sub (ids_sub_deleteMany s.db f) h1 h2
    exact ⟨g1, g2, h3⟩
  | softDelete now i2 b =>
    obtain ⟨g1, g2⟩ := inv_of_sub (ids_sub_fbiu s.db i2 _ {}) h1 h2
    exact ⟨g1, g2, h3⟩
  | softDeleteMany now f b =>
    obtain ⟨g1, g2⟩ := inv_of_sub (ids_sub_updateMany s.db f _) h1 h2
    exact ⟨g1, g2, h3⟩
  | restore i2 =>
    obtain ⟨g1, g2⟩ := inv_of_sub (ids_sub_fbiu s.db i2 SoftDel.clearUpd {}) h1 h2
    exact ⟨g1, g2, h3⟩
  | restoreMany f =>
    obtain ⟨g1, g2⟩ := inv_of_sub (ids_sub_updateMany s.db f SoftDel.clearUpd) h1 h2
    exact ⟨g1, g2, h3⟩
  | forceDelete i2 =>
    obtain ⟨g1, g2⟩ := inv_of_sub (ids_sub_fbidel s.db i2) h1 h2
    exact ⟨g1, g2, h3⟩
  | forceDeleteMany f =>
    obtain ⟨g1, g2⟩ := inv_of_sub (ids_sub_deleteMany s.db f) h1 h2
    exact ⟨g1, g2, h3⟩
  | updateManyWithAudit f u a =>
    obtain ⟨g1, g2⟩ := inv_of_sub (ids_sub_updateMany s.db f _) h1 h2
    exact ⟨g1, g2, h3⟩

/-- An identity absent and below the fresh-id counter stays absent across
any trace of repository operations. -/
theorem noId_trace (i : Nat) (ops : List Op) (s : St)
    (h1 : NoId s.db i) (h2 : IdsBelow s.db s.nextId) (h3 : i < s.nextId) :
    NoId (runTrace s ops).db i := by
  induction ops generalizing s with
  | nil => exact h1
  | cons op rest ih =>
    obtain ⟨g1, g2, g3⟩ := noId_below_step i s op h1 h2 h3
    exact ih (op.apply s) g1 g2 g3

/-- In an id-unique collection, `forceDelete(id)` leaves no record with
that identity. -/
theorem noId_forceDelete {db : DB} {i : Nat}
    (hnd : (db.map Rec.id).Nodup) : NoId (SoftDel.forceDelete db i).2 i := by
  unfold SoftDel.forceDelete Base.findByIdAndDelete
  simp only
  induction db with
  | nil =>
    intro x hx
    simp [removeFirst] at hx
  | cons a rest ih =>
    simp only [List.map_cons, List.nodup_cons] at hnd
    by_cases ha : a.id = i
    · unfold removeFirst
      rw [if_pos (by simp [ha])]
      intro x hx he
      apply hnd.1
      rw [ha, ← he]
      exact List.mem_map_of_mem Rec.id hx
    · unfold removeFirst
      rw [if_neg (by simp [ha])]
      intro x hx
      rcases List.mem_cons.mp hx with rfl | hx
      · exact ha
      · exact ih hnd.2 x hx

/-- C9: `forceDelete(id)` physically removes the record regardless of its
soft-delete state, and afterward — across ANY trace of subsequent
repository operations — no read in any visibility mode (default
live-only, WithDeleted, or OnlyDeleted, by id or by filter) ever returns
a record with that identity again: the store assigns only fresh
identities, so the removed record is unrecoverable. -/
theorem forceDelete_unrecoverable (s : St) (i : Nat) (r : Rec)
    (ops : List Op) (hwf : WF s) (hmem : r ∈ s.db) (hid : r.id = i) :
    r ∉ ((Op.forceDelete i).apply s).db ∧
    NoId (runTrace ((Op.forceDelete i).apply s) ops).db i ∧
    SoftDel.findById (runTrace ((Op.forceDelete i).apply s) ops).db i = none ∧
    Base.findById (runTrace ((Op.forceDelete i).apply s) ops).db i = none ∧
    SoftDel.findAllWithDeleted (runTrace ((Op.forceDelete i).apply s) ops).db
      { idEq := some i } = [] ∧
    SoftDel.findAllOnlyDeleted (runTrace ((Op.forceDelete i).apply s) ops).db
      { idEq := some i } = [] ∧
    SoftDel.findAll (runTrace ((Op.forceDelete i).apply s) ops).db
      { idEq := some i } = [] := by
  have h3 : i < s.nextId := hid ▸ hwf.1 r hmem
  have h1 : NoId ((Op.forceDelete i).apply s).db i := noId_forceDelete hwf.2
  have h2 : IdsBelow ((Op.forceDelete i).apply s).db
      ((Op.forceDelete i).apply s).nextId := by
    intro x hx
    obtain ⟨y, hy, he⟩ := ids_sub_fbidel s.db i x hx
    rw [he]
    exact hwf.1 y hy
  have hno : NoId (runTrace ((Op.forceDelete i).apply s) ops).db i :=
    noId_trace i ops _ h1 h2 h3
  have hmatch : ∀ (c : DeletedAtCond)
      (x : Rec), x.id ≠ i →
      Filter.matches { idEq := some i, payloadEq := none, deletedAtCond := c } x =
        false := by
    intro c x hx
    simp [Filter.matches, optEqMatches, Ne.symm hx]
  refine ⟨?_, hno, ?_, ?_, ?_, ?_, ?_⟩
  · intro hr
    exact h1 r hr hid
  · apply List.find?_eq_none.mpr
    intro x hx
    simp [hmatch DeletedAtCond.isNull x (hno x hx)]
  · apply List.find?_eq_none.mpr
    intro x hx
    simp [hno x hx]
  · apply List.filter_eq_nil_iff.mpr
    intro x hx
    simp [hmatch DeletedAtCond.any x (hno x hx)]
  · apply List.filter_eq_nil_iff.mpr
    intro x hx
    simp [Filter.withOnlyDeleted, hmatch DeletedAtCond.notNull x (hno x hx)]
  · apply List.filter_eq_nil_iff.mpr
    intro x hx
    simp [Filter.withLive, hmatch DeletedAtCond.isNull x (hno x hx)]

/-- C9 (witness): force-deleting the soft-deleted record 1 and then
running a create, a bulk restore, and a soft delete still leaves every
visibility mode empty at id 1. -/
theorem forceDelete_unrecoverable_witness :
    WF { db := [mkDel 1 0 5, mkLive 2 3], nextId := 3 } ∧
      SoftDel.findAllWithDeleted
        (runTrace ((Op.forceDelete 1).apply
            { db := [mkDel 1 0 5, mkLive 2 3], nextId := 3 })
          [Op.create {}, Op.restoreMany {}, Op.softDelete 9 2 none]).db
        { idEq := some 1 } = [] :=
  ⟨by decide,
    (forceDelete_unrecoverable { db := [mkDel 1 0 5, mkLive 2 3], nextId := 3 }
      1 (mkDel 1 0 5) [Op.create {}, Op.restoreMany {}, Op.softDelete 9 2 none]
      (by decide) (by simp) rfl).2.2.2.2.1⟩

theorem updFirst_map_deletedBy {p : Rec → Bool} {u : UpdateDoc} {db : DB}
    (h : u.setDeletedBy = none) :
    (updFirst p u db).map Rec.deletedBy = db.map Rec.deletedBy := by
  induction db with
  | nil => rfl
  | cons a rest ih =>
    by_cases hp : p a
    · simp only [updFirst, if_pos hp, List.map_cons]
      rw [show (u.apply a).deletedBy = setField u.setDeletedBy a.deletedBy from rfl, h]
      rfl
    · simp only [updFirst, if_neg hp, List.map_cons, ih]

/-- C10: an empty-string actor is treated exactly like an absent actor on
every stamping path, because each path stamps only when the argument is
truthy: `createWithAudit` with actor `""` is the plain base create (so
`createdBy` stays whatever the data carries — unset if absent there),
`updateManyWithAudit` with actor `""` is the raw unenriched `updateMany`
(no `updatedBy` stamp), and `softDelete` with actor `""` behaves as with
no actor: it stamps `deletedAt` via the same update but leaves every
record's `deletedBy` unchanged. -/
theorem empty_actor_spec (db : DB) (newId now i : Nat) (d : RecData)
    (f : Filter) (u : UpdateDoc) :
    Audit.createWithAudit db newId d (some "") = Base.create db newId d ∧
    Audit.updateManyWithAudit db f u (some "") = Base.updateMany db f u ∧
    SoftDel.softDelete db now i (some "") = SoftDel.softDelete db now i none ∧
    (SoftDel.softDelete db now i (some "")).2.map Rec.deletedBy =
      db.map Rec.deletedBy := by
  have ht : truthy (some "") = false := by decide
  refine ⟨?_, ?_, ?_, ?_⟩
  · unfold Audit.createWithAudit
    rw [ht]
    simp
  · unfold Audit.updateManyWithAudit
    rw [ht]
    simp
  · unfold SoftDel.softDelete
    rw [ht]
    simp [truthy]
  · unfold SoftDel.softDelete
    unfold Base.findByIdAndUpdate
    cases hfind : db.find? (fun x => decide (x.id = i)) with
    | none => rw [ht]
    | some r =>
      rw [ht]
      simp only
      exact updFirst_map_deletedBy rfl

end NestAuth
